import Mathlib

/-!
Shallow embedding of the numeric core of the nexus-ui-ts repository:
the stateless numeric transform functions (clip, scale, invert, ri, rf,
coin, average, toPolar, toCartesian) and the stateful moving-average
filter (class Lowpass in src/util/smooth.ts).

Functions that use only field arithmetic, comparisons and flooring are
modelled over ℚ so that they are executable.  JavaScript division can
produce the IEEE-754 sentinels NaN and ±Infinity; where a claim depends
on that (average of the empty list) division is modelled by a JsNum
result type carrying those sentinels.  The geometric functions toPolar
and toCartesian use sqrt, atan2, sin and cos and are modelled over ℝ,
with atan2 y x embedded as the argument of the complex number x + y*I
(range (-π, π], agreeing with atan2 on every input, including (0,0)).
The uniform random draw Math.random() is modelled as an explicit extra
parameter u with 0 ≤ u < 1.
-/

namespace NexusUI

/-- Source clip: Math.min(Math.max(value, min), max).  The binders are
named vmin, vmax to avoid shadowing the order operations. -/
def clip (value vmin vmax : ℚ) : ℚ :=
  min (max value vmin) vmax

/-- Source scale: if inMin === inMax then outMin else
((inNum - inMin) * (outMax - outMin)) / (inMax - inMin) + outMin. -/
def scale (inNum inMin inMax outMin outMax : ℚ) : ℚ :=
  if inMin = inMax then outMin
  else ((inNum - inMin) * (outMax - outMin)) / (inMax - inMin) + outMin

/-- Source invert: scale(inNum, 1, 0, 0, 1). -/
def invert (inNum : ℚ) : ℚ :=
  scale inNum 1 0 0 1

/-- Source ri.  The falsy test !bound2 is modelled as bound2 = 0 (the
only falsy rational); when it holds the call is reinterpreted as
ri(0, bound1).  Math.random() is the explicit draw u.  Math.floor of a
number is the integer floor. -/
def ri (bound1 bound2 u : ℚ) : ℤ :=
  let b1 := if bound2 = 0 then 0 else bound1
  let b2 := if bound2 = 0 then bound1 else bound2
  let low := min b1 b2
  let high := max b1 b2
  ⌊u * (high - low) + low⌋

/-- Source rf: same bound resolution as ri, no flooring. -/
def rf (bound1 bound2 u : ℚ) : ℚ :=
  let b1 := if bound2 = 0 then 0 else bound1
  let b2 := if bound2 = 0 then bound1 else bound2
  let low := min b1 b2
  let high := max b1 b2
  u * (high - low) + low

/-- Source coin: rf(0,1) < odds ? 1 : 0, with the draw u made explicit. -/
def coin (odds u : ℚ) : ℚ :=
  if rf 0 1 u < odds then 1 else 0

/-- JavaScript numeric result of a division: a finite value or one of
the IEEE-754 sentinels produced by dividing by zero. -/
inductive JsNum where
  | nan : JsNum
  | posInf : JsNum
  | negInf : JsNum
  | num : ℚ → JsNum
deriving DecidableEq

/-- JavaScript division a / b on (finite, exact) numbers: 0/0 is NaN,
x/0 for x ≠ 0 is a signed infinity, otherwise the exact quotient. -/
def jsDiv (a b : ℚ) : JsNum :=
  if b = 0 then
    if a = 0 then JsNum.nan else if 0 < a then JsNum.posInf else JsNum.negInf
  else JsNum.num (a / b)

/-- Source average: data.reduce((a, b) => a + b, 0) / data.length. -/
def average (data : List ℚ) : JsNum :=
  jsDiv (data.foldl (fun a b => a + b) 0) data.length

/-- State of the Lowpass class from src/util/smooth.ts. -/
structure Lowpass where
  factor : ℕ
  history : List ℚ
deriving DecidableEq

/-- Source constructor: this.factor = factor || 2; this.history = [].
The TypeScript argument may be absent (undefined), hence Option; the
falsy test picks the default 2 for an absent or zero argument. -/
def Lowpass.create (factor : Option ℕ) : Lowpass :=
  { factor :=
      match factor with
      | Option.none => 2
      | Option.some f => if f = 0 then 2 else f
    history := [] }

/-- Source update: push value, splice the front down to factor elements
when the length exceeds it, return the mean of the history.  Modelled as
returning the value together with the new state. -/
def Lowpass.update (l : Lowpass) (value : ℚ) : ℚ × Lowpass :=
  let h0 := l.history ++ [value]
  let h := if h0.length > l.factor then h0.drop (h0.length - l.factor) else h0
  ((h.foldl (fun a b => a + b) 0) / (h.length : ℚ),
   { factor := l.factor, history := h })

/-- Iterate update over a list of samples, keeping the final state. -/
def Lowpass.run (l : Lowpass) : List ℚ → Lowpass
  | [] => l
  | v :: rest => Lowpass.run (l.update v).2 rest

/-- Iterate update over a list of samples, collecting the returned
values. -/
def Lowpass.outputs (l : Lowpass) : List ℚ → List ℚ
  | [] => []
  | v :: rest => (l.update v).1 :: Lowpass.outputs (l.update v).2 rest

/-- Polar coordinate pair returned by toPolar. -/
structure PolarCoord where
  radius : ℝ
  angle : ℝ

/-- Cartesian coordinate pair returned by toCartesian. -/
structure CartesianCoord where
  x : ℝ
  y : ℝ

/-- Math.atan2(y, x), embedded as the argument of the complex number
with real part x and imaginary part y; its range is (-π, π]. -/
noncomputable def atan2 (y x : ℝ) : ℝ :=
  Complex.arg ⟨x, y⟩

/-- Source toPolar: r = sqrt(x*x + y*y); theta = atan2(y, x); add 2π to
theta when it is negative. -/
noncomputable def toPolar (x y : ℝ) : PolarCoord :=
  let r := Real.sqrt (x * x + y * y)
  let theta := atan2 y x
  { radius := r
    angle := if theta < 0 then theta + 2 * Real.pi else theta }

/-- Source toCartesian: x = radius * cos(angle), y = radius * sin(angle)
* (-1). -/
noncomputable def toCartesian (radius angle : ℝ) : CartesianCoord :=
  { x := radius * Real.cos angle
    y := radius * Real.sin angle * (-1) }

/-- Folding addition from an accumulator computes the accumulator plus
the list sum. -/
theorem foldl_add_eq_sum (l : List ℚ) (a : ℚ) :
    l.foldl (fun x y => x + y) a = a + l.sum := by
  induction l generalizing a with
  | nil => simp
  | cons b t ih => simp [List.foldl_cons, ih, List.sum_cons]; ring

/-- Claim C1 counterexample: with min = 10 > max = 0 and value 5, clip
returns 0 (the max argument), not the min argument 10. -/
theorem clip_counterexample :
    clip 5 10 0 = 0 ∧ clip 5 10 0 ≠ 10 := by
  constructor <;> decide

/-- Claim C1 (amended): for every value, min, max with min > max,
clip(value, min, max) returns max unconditionally. -/
theorem clip_min_gt_max (value vmin vmax : ℚ) (h : vmax < vmin) :
    clip value vmin vmax = vmax := by
  unfold clip
  exact min_eq_right (le_trans (le_of_lt h) (le_max_right value vmin))

/-- Witness for clip_min_gt_max at value = 7, min = 10, max = 0. -/
theorem clip_min_gt_max_witness :
    (0 : ℚ) < 10 ∧ clip 7 10 0 = 0 :=
  ⟨by norm_num, clip_min_gt_max 7 10 0 (by norm_num)⟩

/-- Claim C9: invert(x) = 1 - x for every x, and invert is exactly the
call scale(x, 1, 0, 0, 1). -/
theorem invert_eq_one_sub (x : ℚ) :
    invert x = 1 - x ∧ invert x = scale x 1 0 0 1 := by
  constructor
  · unfold invert scale
    norm_num
    ring
  · rfl

/-- Claim C4: the filter constructed with no capacity argument and the
one constructed with capacity 0 produce, on every sample sequence, the
same outputs as the filter constructed with capacity 2. -/
theorem default_capacity_eq_two (xs : List ℚ) :
    Lowpass.outputs (Lowpass.create Option.none) xs =
      Lowpass.outputs (Lowpass.create (Option.some 2)) xs ∧
    Lowpass.outputs (Lowpass.create (Option.some 0)) xs =
      Lowpass.outputs (Lowpass.create (Option.some 2)) xs := by
  have h1 : Lowpass.create Option.none = Lowpass.create (Option.some 2) := rfl
  have h2 : Lowpass.create (Option.some 0) = Lowpass.create (Option.some 2) := by
    unfold Lowpass.create
    norm_num
  rw [h1, h2]
  exact ⟨rfl, rfl⟩

/-- Claim C8: update never changes the factor field; the capacity fixed
at construction persists across every update. -/
theorem update_preserves_factor (l : Lowpass) (v : ℚ) :
    ((l.update v).2).factor = l.factor := rfl

/-- Claim C6: for every draw u with 0 ≤ u < 1, coin(0) returns 0 and
coin(1) returns 1. -/
theorem coin_boundary (u : ℚ) (h0 : 0 ≤ u) (h1 : u < 1) :
    coin 0 u = 0 ∧ coin 1 u = 1 := by
  have hrf : rf 0 1 u = u := by
    unfold rf
    norm_num
  unfold coin
  rw [hrf]
  constructor
  · rw [if_neg (not_lt.mpr h0)]
  · rw [if_pos h1]

/-- Witness for coin_boundary at u = 1/2. -/
theorem coin_boundary_witness :
    ((0 : ℚ) ≤ 1 / 2 ∧ (1 : ℚ) / 2 < 1) ∧
      (coin 0 (1 / 2) = 0 ∧ coin 1 (1 / 2) = 1) :=
  ⟨⟨by norm_num, by norm_num⟩,
   coin_boundary (1 / 2) (by norm_num) (by norm_num)⟩

/-- Claim C7: average of the empty sequence is NaN (no exception is
possible: the result is a value for every input), and of a non-empty
sequence it is the arithmetic mean of the elements. -/
theorem average_spec (data : List ℚ) :
    average data =
      if data.length = 0 then JsNum.nan
      else JsNum.num (data.sum / (data.length : ℚ)) := by
  unfold average jsDiv
  rw [foldl_add_eq_sum, zero_add]
  rcases data with _ | ⟨a, t⟩
  · norm_num
  · have hn : (a :: t).length ≠ 0 := by simp
    have hq : ((a :: t).length : ℚ) ≠ 0 := Nat.cast_ne_zero.mpr hn
    rw [if_neg hq, if_neg hn]

/-- Running the filter never changes the factor field. -/
theorem Lowpass.run_factor (xs : List ℚ) :
    ∀ l : Lowpass, (Lowpass.run l xs).factor = l.factor := by
  induction xs with
  | nil => intro l; rfl
  | cons v rest ih =>
    intro l
    simp only [Lowpass.run]
    rw [ih]
    rfl

/-- Running the filter over an appended list runs it over the pieces in
order. -/
theorem Lowpass.run_append (xs ys : List ℚ) :
    ∀ l : Lowpass, Lowpass.run l (xs ++ ys) =
      Lowpass.run (Lowpass.run l xs) ys := by
  induction xs with
  | nil => intro l; rfl
  | cons v rest ih =>
    intro l
    simp only [List.cons_append, Lowpass.run]
    exact ih _

/-- History characterization: starting from history h with at most
factor elements, running the samples xs leaves exactly the suffix of
h ++ xs of length min(h.length + xs.length, factor). -/
theorem Lowpass.run_history (xs : List ℚ) :
    ∀ (f : ℕ) (h : List ℚ), h.length ≤ f →
      (Lowpass.run ⟨f, h⟩ xs).history =
        (h ++ xs).drop (h.length + xs.length - f) := by
  induction xs with
  | nil =>
    intro f h hle
    simp [Lowpass.run, Nat.sub_eq_zero_of_le hle]
  | cons v rest ih =>
    intro f h hle
    simp only [Lowpass.run]
    by_cases hgt : (h ++ [v]).length > f
    · have hlenf : h.length = f := by
        simp only [List.length_append, List.length_cons,
          List.length_nil] at hgt
        omega
      have hupd : (Lowpass.update ⟨f, h⟩ v).2 =
          ⟨f, (h ++ [v]).drop ((h ++ [v]).length - f)⟩ := by
        simp only [Lowpass.update, if_pos hgt]
      rw [hupd]
      have hlen2 : ((h ++ [v]).drop ((h ++ [v]).length - f)).length ≤ f := by
        rw [List.length_drop]
        omega
      rw [ih f _ hlen2]
      have hd1 : (h ++ [v]).length - f = 1 := by
        simp only [List.length_append, List.length_cons, List.length_nil]
        omega
      rw [hd1]
      have hsplit : (h ++ [v]).drop 1 ++ rest = ((h ++ [v]) ++ rest).drop 1 :=
        (List.drop_append_of_le_length (by
          simp only [List.length_append, List.length_cons, List.length_nil]
          omega)).symm
      rw [hsplit, List.drop_drop]
      have hidx : 1 + (((h ++ [v]).drop 1).length + rest.length - f)
          = h.length + (v :: rest).length - f := by
        rw [List.length_drop]
        simp only [List.length_append, List.length_cons, List.length_nil]
        omega
      have hlist : h ++ v :: rest = h ++ [v] ++ rest := by
        rw [List.append_assoc, List.singleton_append]
      rw [hlist, hidx]
    · have hupd : (Lowpass.update ⟨f, h⟩ v).2 = ⟨f, h ++ [v]⟩ := by
        simp only [Lowpass.update, if_neg hgt]
      rw [hupd]
      have hlen2 : (h ++ [v]).length ≤ f := le_of_not_lt hgt
      rw [ih f _ hlen2]
      rw [List.append_assoc, List.singleton_append]
      congr 1
      simp only [List.length_append, List.length_cons, List.length_nil]
      omega

/-- Claim C3: for a filter built with a positive capacity f, after any
samples xs followed by one more update with v, the history is exactly
the suffix of the received samples of length min(total, f) in
oldest-first order, and the value returned by that update is the sum of
the history divided by its length. -/
theorem lowpass_invariant (f : ℕ) (hf : 0 < f) (xs : List ℚ) (v : ℚ) :
    ((Lowpass.run (Lowpass.create (Option.some f)) (xs ++ [v])).history =
      (xs ++ [v]).drop ((xs ++ [v]).length - f)) ∧
    ((Lowpass.run (Lowpass.create (Option.some f)) (xs ++ [v])).history.length =
      min (xs ++ [v]).length f) ∧
    (((Lowpass.run (Lowpass.create (Option.some f)) xs).update v).1 =
      ((Lowpass.run (Lowpass.create (Option.some f)) (xs ++ [v])).history.sum /
        (((Lowpass.run (Lowpass.create (Option.some f)) (xs ++ [v])).history.length : ℕ) : ℚ))) := by
  have hcreate : Lowpass.create (Option.some f) = ⟨f, []⟩ := by
    simp only [Lowpass.create, if_neg (Nat.pos_iff_ne_zero.mp hf)]
  have hhist : (Lowpass.run (Lowpass.create (Option.some f)) (xs ++ [v])).history =
      (xs ++ [v]).drop ((xs ++ [v]).length - f) := by
    rw [hcreate]
    have := Lowpass.run_history (xs ++ [v]) f [] (by simp)
    simpa using this
  refine ⟨hhist, ?_, ?_⟩
  · rw [hhist, List.length_drop]
    omega
  · rw [Lowpass.run_append]
    have hpair : ∀ (l : Lowpass) (w : ℚ),
        (l.update w).1 = ((l.update w).2.history.sum /
          (((l.update w).2.history.length : ℕ) : ℚ)) := by
      intro l w
      simp only [Lowpass.update]
      rw [foldl_add_eq_sum, zero_add]
    rw [hpair]
    rfl

/-- Witness for lowpass_invariant at f = 3 with samples 1, 2, 3 and a
final update with 4: the fourth update returns (2 + 3 + 4) / 3 = 3. -/
theorem lowpass_invariant_witness :
    0 < 3 ∧
      ((Lowpass.run (Lowpass.create (Option.some 3)) [1, 2, 3]).update 4).1 = 3 := by
  constructor
  · norm_num
  · have h := (lowpass_invariant 3 (by norm_num) [1, 2, 3] 4).2.2
    rw [h]
    norm_num [Lowpass.create, Lowpass.run, Lowpass.update]

/-- Claim C2 counterexample: with a = b = 1 (b not falsy) and draw
u = 0, rf(1,1) returns 1, which does not lie in the empty interval
[min(1,1), max(1,1)) = [1,1); and with non-integer bounds a = 1/2,
b = 5/2 and draw u = 0, ri returns floor(1/2) = 0, which lies below
min(a,b) = 1/2. -/
theorem ri_rf_counterexample :
    (¬ (min (1 : ℚ) 1 ≤ rf 1 1 0 ∧ rf 1 1 0 < max (1 : ℚ) 1)) ∧
    (¬ (min (1 / 2 : ℚ) (5 / 2) ≤ ((ri (1 / 2) (5 / 2) 0 : ℤ) : ℚ) ∧
        ((ri (1 / 2) (5 / 2) 0 : ℤ) : ℚ) < max (1 / 2 : ℚ) (5 / 2))) := by
  have h1 : rf 1 1 0 = 1 := by
    simp only [rf]
    norm_num
  have h2 : ri (1 / 2) (5 / 2) 0 = 0 := by
    simp only [ri]
    norm_num
  rw [h1, h2]
  norm_num

/-- Claim C2 (amended): for a, b with b nonzero and min(a,b) strictly
below max(a,b), and every draw u in [0,1), rf(a,b) lies in
[min(a,b), max(a,b)); when a and b are in addition integers, ri(a,b)
also lies in [min(a,b), max(a,b)). -/
theorem ri_rf_within_bounds (a b u : ℚ) (hb : b ≠ 0)
    (hab : min a b < max a b) (h0 : 0 ≤ u) (h1 : u < 1) :
    (min a b ≤ rf a b u ∧ rf a b u < max a b) ∧
    (∀ m n : ℤ, a = (m : ℚ) → b = (n : ℚ) →
      (min a b ≤ ((ri a b u : ℤ) : ℚ) ∧ ((ri a b u : ℤ) : ℚ) < max a b)) := by
  have hrfq : rf a b u = u * (max a b - min a b) + min a b := by
    simp only [rf, if_neg hb]
  have hriq : ri a b u = ⌊u * (max a b - min a b) + min a b⌋ := by
    simp only [ri, if_neg hb]
  constructor
  · have hd : 0 < max a b - min a b := sub_pos.mpr hab
    rw [hrfq]
    constructor
    · nlinarith [mul_nonneg h0 (le_of_lt hd)]
    · have hlt : u * (max a b - min a b) < max a b - min a b :=
        mul_lt_of_lt_one_left hd h1
      linarith
  · intro m n ham hbn
    subst ham
    subst hbn
    have hmin : ((min m n : ℤ) : ℚ) = min ((m : ℚ)) ((n : ℚ)) :=
      Int.cast_min
    have hmax : ((max m n : ℤ) : ℚ) = max ((m : ℚ)) ((n : ℚ)) :=
      Int.cast_max
    have hlt : min m n < max m n := by
      rw [← hmin, ← hmax] at hab
      exact_mod_cast hab
    have hfloor : ri ((m : ℚ)) ((n : ℚ)) u =
        ⌊u * ((max m n - min m n : ℤ) : ℚ)⌋ + min m n := by
      rw [hriq, ← hmin, ← hmax, ← Int.cast_sub]
      exact Int.floor_add_int _ _
    have hdpos : (0 : ℚ) < ((max m n - min m n : ℤ) : ℚ) := by
      exact_mod_cast Int.sub_pos.mpr hlt
    have hfl_nonneg : 0 ≤ ⌊u * ((max m n - min m n : ℤ) : ℚ)⌋ :=
      Int.floor_nonneg.mpr (mul_nonneg h0 (le_of_lt hdpos))
    have hfl_lt : ⌊u * ((max m n - min m n : ℤ) : ℚ)⌋ < max m n - min m n :=
      Int.floor_lt.mpr (mul_lt_of_lt_one_left hdpos h1)
    rw [hfloor]
    constructor
    · rw [← hmin]
      exact_mod_cast Int.le_add_of_nonneg_left hfl_nonneg
    · rw [← hmax]
      have hsum : ⌊u * ((max m n - min m n : ℤ) : ℚ)⌋ + min m n < max m n := by
        omega
      exact_mod_cast hsum

/-- Witness for ri_rf_within_bounds at a = 0, b = 2, u = 1/2, with the
integer part instantiated at m = 0, n = 2. -/
theorem ri_rf_within_bounds_witness :
    ((2 : ℚ) ≠ 0 ∧ min (0 : ℚ) 2 < max (0 : ℚ) 2 ∧
      (0 : ℚ) ≤ 1 / 2 ∧ (1 : ℚ) / 2 < 1) ∧
    ((min (0 : ℚ) 2 ≤ rf 0 2 (1 / 2) ∧ rf 0 2 (1 / 2) < max (0 : ℚ) 2) ∧
      (min (0 : ℚ) 2 ≤ ((ri 0 2 (1 / 2) : ℤ) : ℚ) ∧
        ((ri 0 2 (1 / 2) : ℤ) : ℚ) < max (0 : ℚ) 2)) :=
  ⟨⟨by norm_num, by norm_num, by norm_num, by norm_num⟩,
   ⟨(ri_rf_within_bounds 0 2 (1 / 2) (by norm_num) (by norm_num)
      (by norm_num) (by norm_num)).1,
    (ri_rf_within_bounds 0 2 (1 / 2) (by norm_num) (by norm_num)
      (by norm_num) (by norm_num)).2 0 2 (by norm_num) (by norm_num)⟩⟩

/-- Claim C5: toPolar returns radius sqrt(x² + y²), hence nonnegative,
and angle atan2(y, x) plus 2π exactly when atan2(y, x) is negative; the
angle always lies in [0, 2π). -/
theorem toPolar_spec (x y : ℝ) :
    (toPolar x y).radius = Real.sqrt (x ^ 2 + y ^ 2) ∧
    0 ≤ (toPolar x y).radius ∧
    (toPolar x y).angle =
      (if atan2 y x < 0 then atan2 y x + 2 * Real.pi else atan2 y x) ∧
    (toPolar x y).angle ∈ Set.Ico 0 (2 * Real.pi) := by
  have hr : (toPolar x y).radius = Real.sqrt (x ^ 2 + y ^ 2) := by
    unfold toPolar
    ring_nf
  have ha : (toPolar x y).angle =
      (if atan2 y x < 0 then atan2 y x + 2 * Real.pi else atan2 y x) := rfl
  refine ⟨hr, ?_, ha, ?_⟩
  · rw [hr]
    exact Real.sqrt_nonneg _
  · rw [ha]
    have hlo : -Real.pi < atan2 y x := Complex.neg_pi_lt_arg _
    have hhi : atan2 y x ≤ Real.pi := Complex.arg_le_pi _
    have hpi : 0 < Real.pi := Real.pi_pos
    by_cases hneg : atan2 y x < 0
    · rw [if_pos hneg]
      exact ⟨by linarith, by linarith⟩
    · rw [if_neg hneg]
      exact ⟨le_of_not_lt hneg, by linarith⟩

/-- Claim C10: feeding toPolar output into toCartesian reflects the
point across the x-axis: the round trip sends (x, y) to (x, -y). -/
theorem roundtrip_reflects (x y : ℝ) :
    (toCartesian (toPolar x y).radius (toPolar x y).angle).x = x ∧
    (toCartesian (toPolar x y).radius (toPolar x y).angle).y = -y := by
  have hr : (toPolar x y).radius = Complex.abs ⟨x, y⟩ := by
    unfold toPolar
    rw [Complex.abs_apply, Complex.normSq_mk]
  have hcos : Real.cos (toPolar x y).angle = Real.cos (atan2 y x) := by
    unfold toPolar
    by_cases hneg : atan2 y x < 0
    · simp only [if_pos hneg]
      exact Real.cos_add_two_pi _
    · simp only [if_neg hneg]
  have hsin : Real.sin (toPolar x y).angle = Real.sin (atan2 y x) := by
    unfold toPolar
    by_cases hneg : atan2 y x < 0
    · simp only [if_pos hneg]
      exact Real.sin_add_two_pi _
    · simp only [if_neg hneg]
  constructor
  · show (toPolar x y).radius * Real.cos (toPolar x y).angle = x
    rw [hr, hcos]
    exact Complex.abs_mul_cos_arg ⟨x, y⟩
  · show (toPolar x y).radius * Real.sin (toPolar x y).angle * (-1) = -y
    rw [hr, hsin]
    have him : Complex.abs ⟨x, y⟩ * Real.sin (atan2 y x) = y :=
      Complex.abs_mul_sin_arg ⟨x, y⟩
    rw [him]
    ring

end NexusUI
